import Mathlib

/-
Verification of the ryOS front-end logic: the terminal command parser and
command dispatcher, the vim-style modal line editor, the chat room message
merge layer, the TextEdit line-edit application function, and the email data
editor validation.  JavaScript strings are modelled as lists of characters
(`Str`), arrays as Lean lists, and the relevant handler functions are
translated statement by statement from the TypeScript source.  Browser-side
effects (React state setters, localStorage, network, console) are made
explicit: each handler returns the state it writes, and environment-dependent
values (clock, locale rendering) are inputs.
-/

/-- JavaScript strings, modelled as lists of characters. -/
abbrev Str := List Char

/-- The double-quote character. -/
def dq : Char := Char.ofNat 34

/-- The single-quote character. -/
def sqc : Char := Char.ofNat 39

/-- String.prototype.split with a single-character separator: splitting the
empty string yields one empty piece, exactly as in JavaScript. -/
def splitOnC (c : Char) : Str → List Str
  | [] => [[]]
  | a :: rest =>
    if a = c then [] :: splitOnC c rest
    else
      match splitOnC c rest with
      | [] => [[a]]
      | s :: ss => (a :: s) :: ss

/-- Array.prototype.join with a single-character separator. -/
def joinC (c : Char) (ls : List Str) : Str := List.intercalate [c] ls

theorem splitOnC_ne_nil (c : Char) (s : Str) : splitOnC c s ≠ [] := by
  induction s with
  | nil => simp [splitOnC]
  | cons a rest ih =>
    simp only [splitOnC]
    split
    · simp
    · rcases h : splitOnC c rest with _ | ⟨s, ss⟩
      · simp
      · simp

theorem joinC_splitOnC (c : Char) (s : Str) : joinC c (splitOnC c s) = s := by
  induction s with
  | nil => simp [splitOnC, joinC, List.intercalate]
  | cons a rest ih =>
    simp only [splitOnC]
    split
    · rename_i hac
      subst hac
      rcases h : splitOnC a rest with _ | ⟨s, ss⟩
      · exact absurd h (splitOnC_ne_nil a rest)
      · rw [h] at ih
        simpa [joinC, List.intercalate] using ih
    · rcases h : splitOnC c rest with _ | ⟨s, ss⟩
      · exact absurd h (splitOnC_ne_nil c rest)
      · rw [h] at ih
        rcases ss with _ | ⟨t, ts⟩
        · simpa [joinC, List.intercalate] using congrArg (a :: ·) ih
        · rw [joinC, List.intercalate] at ih ⊢
          simpa using congrArg (a :: ·) ih

theorem splitOnC_not_mem (c : Char) (s : Str) :
    ∀ t ∈ splitOnC c s, c ∉ t := by
  induction s with
  | nil => simp [splitOnC]
  | cons a rest ih =>
    simp only [splitOnC]
    split
    · intro t ht
      rcases List.mem_cons.mp ht with rfl | ht
      · simp
      · exact ih t ht
    · rename_i hac
      rcases h : splitOnC c rest with _ | ⟨s, ss⟩
      · exact absurd h (splitOnC_ne_nil c rest)
      · intro t ht
        rcases List.mem_cons.mp ht with rfl | ht
        · intro hmem
          rcases List.mem_cons.mp hmem with rfl | hmem
          · exact hac rfl
          · exact ih s (h ▸ List.mem_cons_self s ss) hmem
        · exact ih t (h ▸ List.mem_cons.mpr (Or.inr ht))

/-- Splitting a separator-free string yields the string itself. -/
theorem splitOnC_eq_single (c : Char) (s : Str) (h : c ∉ s) :
    splitOnC c s = [s] := by
  induction s with
  | nil => simp [splitOnC]
  | cons a rest ih =>
    simp only [splitOnC]
    rw [if_neg (by intro hac; exact h (hac ▸ List.mem_cons_self a rest))]
    rw [ih (fun hc => h (List.mem_cons.mpr (Or.inr hc)))]

/-- Splitting at the first separator occurrence. -/
theorem splitOnC_append (c : Char) (s t : Str) (h : c ∉ s) :
    splitOnC c (s ++ c :: t) = s :: splitOnC c t := by
  induction s with
  | nil => simp [splitOnC]
  | cons a rest ih =>
    have hne : a ≠ c := fun hac => h (hac ▸ List.mem_cons_self a rest)
    have ih' := ih (fun hc => h (List.mem_cons.mpr (Or.inr hc)))
    simp only [List.cons_append, splitOnC, if_neg hne]
    rw [show rest.append (c :: t) = rest ++ c :: t from rfl, ih']

/-
Vim mode of the terminal app (TerminalAppComponent.tsx).  The buffer is
`vimFile.content.split("\n")`, held here directly as the list of lines; every
operation in the source splits the content, edits the line array, and joins it
back, so the list-of-lines view is exact.  Scroll position handling
(`vimPosition`) is display-only and omitted.
-/

/-- JavaScript Array.prototype.splice, returning the updated array: removes
`delCount` elements starting at `start` (clamped to the array length) and
inserts `items` there. -/
def jsSplice (l : List α) (start delCount : Nat) (items : List α) : List α :=
  l.take start ++ items ++ l.drop (start + delCount)

/-- JavaScript String.prototype.substring for in-range cut points. -/
def jsSub (s : Str) (start stop : Nat) : Str := (s.take stop).drop start

/-- State of the vim editor: the line buffer, cursor, clipboard, and the
`lastKeyPressRef` used to detect double key presses (dd). -/
structure VimState where
  lines : List Str
  cursorLine : Nat
  cursorCol : Nat
  clipboard : Str
  lastKey : Str
  lastTime : Nat
deriving Repr, DecidableEq

/-- Normal-mode `d` key (without Ctrl), translated from handleKeyDown:
if the previous key press was `d` less than 500 ms ago, delete the current
line (or clear it when it is the only line), copying it to the clipboard;
otherwise only record the key press. -/
def dKeyPress (s : VimState) (now : Nat) : VimState :=
  if s.lastKey = "d".data ∧ now - s.lastTime < 500 then
    if s.lines.length > 1 then
      { s with
        clipboard := s.lines.getD s.cursorLine []
        lines := s.lines.eraseIdx s.cursorLine
        cursorLine :=
          if s.cursorLine ≥ (s.lines.eraseIdx s.cursorLine).length then
            (s.lines.eraseIdx s.cursorLine).length - 1
          else s.cursorLine
        cursorCol := 0
        lastKey := []
        lastTime := 0 }
    else
      { s with
        clipboard := s.lines.getD 0 []
        lines := [[]]
        cursorCol := 0
        lastKey := []
        lastTime := 0 }
  else
    { s with lastKey := "d".data, lastTime := now }

/-- Normal-mode `o`: open a new empty line below the cursor and move onto it. -/
def normalO (s : VimState) : VimState :=
  { s with
    lines := jsSplice s.lines (s.cursorLine + 1) 0 [[]]
    cursorLine := s.cursorLine + 1
    cursorCol := 0 }

/-- Normal-mode `O`: open a new empty line above the cursor. -/
def normalOBig (s : VimState) : VimState :=
  { s with
    lines := jsSplice s.lines s.cursorLine 0 [[]]
    cursorCol := 0 }

/-- Normal-mode `p`: paste the clipboard line after the current line; a falsy
(empty) clipboard pastes nothing. -/
def normalP (s : VimState) : VimState :=
  if s.clipboard ≠ [] then
    { s with
      lines := jsSplice s.lines (s.cursorLine + 1) 0 [s.clipboard]
      cursorLine := s.cursorLine + 1
      cursorCol := 0 }
  else s

/-- Normal-mode `yy` (second press within the window): copy the current line. -/
def yankLine (s : VimState) : VimState :=
  { s with clipboard := s.lines.getD s.cursorLine [], lastKey := [], lastTime := 0 }

/-- Insert-mode Backspace: at column 0 merge with the previous line, otherwise
remove the character before the cursor. -/
def insertBackspace (s : VimState) : VimState :=
  if s.cursorCol = 0 ∧ s.cursorLine > 0 then
    let previousLine := s.lines.getD (s.cursorLine - 1) []
    let currentLine := s.lines.getD s.cursorLine []
    let merged := (s.lines.set (s.cursorLine - 1) (previousLine ++ currentLine)).eraseIdx s.cursorLine
    { s with
      lines := merged
      cursorLine := s.cursorLine - 1
      cursorCol := previousLine.length }
  else if s.cursorCol > 0 then
    let currentLine := s.lines.getD s.cursorLine []
    { s with
      lines := s.lines.set s.cursorLine
        (jsSub currentLine 0 (s.cursorCol - 1) ++ currentLine.drop s.cursorCol)
      cursorCol := s.cursorCol - 1 }
  else s

/-- Insert-mode Enter: split the current line at the cursor. -/
def insertEnterKey (s : VimState) : VimState :=
  let currentLine := s.lines.getD s.cursorLine []
  let beforeCursor := jsSub currentLine 0 s.cursorCol
  let afterCursor := currentLine.drop s.cursorCol
  { s with
    lines := jsSplice (s.lines.set s.cursorLine beforeCursor) (s.cursorLine + 1) 0 [afterCursor]
    cursorLine := s.cursorLine + 1
    cursorCol := 0 }

/-- Insert-mode Tab: insert two spaces at the cursor. -/
def insertTab (s : VimState) : VimState :=
  let currentLine := s.lines.getD s.cursorLine []
  { s with
    lines := s.lines.set s.cursorLine
      (jsSub currentLine 0 s.cursorCol ++ "  ".data ++ currentLine.drop s.cursorCol)
    cursorCol := s.cursorCol + 2 }

/-- Insert-mode Delete: at end of line merge with the next line, otherwise
remove the character after the cursor. -/
def insertDelete (s : VimState) : VimState :=
  let currentLine := s.lines.getD s.cursorLine []
  if s.cursorCol = currentLine.length ∧ s.cursorLine < s.lines.length - 1 then
    let nextLine := s.lines.getD (s.cursorLine + 1) []
    { s with
      lines := (s.lines.set s.cursorLine (currentLine ++ nextLine)).eraseIdx (s.cursorLine + 1) }
  else if s.cursorCol < currentLine.length then
    { s with
      lines := s.lines.set s.cursorLine
        (jsSub currentLine 0 s.cursorCol ++ currentLine.drop (s.cursorCol + 1)) }
  else s

/-- Insert-mode character input (handleVimTextInput): insert the last typed
character at the cursor. -/
def vimTextInput (s : VimState) (inputText : Str) : VimState :=
  let lastChar := inputText.drop (inputText.length - 1)
  let currentLine := s.lines.getD s.cursorLine []
  { s with
    lines := s.lines.set s.cursorLine
      (jsSub currentLine 0 s.cursorCol ++ lastChar ++ currentLine.drop s.cursorCol)
    cursorCol := s.cursorCol + 1 }

/-
Terminal command parsing (parseCommand in TerminalAppComponent.tsx).  The
source repeatedly applies the regex /[^\s"]+|"([^"]*)"|.../g with an extra
single-quote alternative: at each position it either takes a maximal run of
non-space non-quote characters, or a quoted section (whose capture group is
pushed when non-empty, and whose full match, quotes included, is pushed when
the capture is empty), or skips a character that starts no match (whitespace,
or a quote with no later closing quote).
-/

/-- Whitespace as matched by the JavaScript \s class and String.trim (ASCII part). -/
def isJsSpace (c : Char) : Bool :=
  c = ' ' ∨ c = '\t' ∨ c = '\n' ∨ c = '\r' ∨ c = Char.ofNat 11 ∨ c = Char.ofNat 12

/-- Character that can extend a plain (unquoted) token: [^\s"] minus the quotes. -/
def isWordChar (c : Char) : Bool := ¬ isJsSpace c ∧ c ≠ dq ∧ c ≠ sqc

/-- Scan for the next occurrence of `c`, returning the part before it and the
part after it, or none when `c` does not occur. -/
def breakAt (c : Char) : Str → Option (Str × Str)
  | [] => none
  | a :: rest =>
    if a = c then some ([], rest)
    else (breakAt c rest).map (fun p => (a :: p.1, p.2))

theorem breakAt_length (c : Char) :
    ∀ s p, breakAt c s = some p → p.2.length < s.length := by
  intro s
  induction s with
  | nil => intro p h; exact Option.noConfusion h
  | cons a rest ih =>
    intro p h
    simp only [breakAt] at h
    split at h
    · cases h; simp
    · rcases hb : breakAt c rest with _ | q
      · rw [hb] at h; simp at h
      · rw [hb] at h
        simp only [Option.map] at h
        cases h
        simpa using Nat.lt_succ_of_lt (ih q hb)

theorem breakAt_append (c : Char) (s t : Str) (h : c ∉ s) :
    breakAt c (s ++ c :: t) = some (s, t) := by
  induction s with
  | nil => simp [breakAt]
  | cons a rest ih =>
    have hne : a ≠ c := fun hac => h (hac ▸ List.mem_cons_self a rest)
    have ih' := ih (fun hc => h (List.mem_cons.mpr (Or.inr hc)))
    simp [breakAt, if_neg hne, ih']

theorem breakAt_none (c : Char) (s : Str) (h : c ∉ s) : breakAt c s = none := by
  induction s with
  | nil => simp [breakAt]
  | cons a rest ih =>
    have hne : a ≠ c := fun hac => h (hac ▸ List.mem_cons_self a rest)
    have ih' := ih (fun hc => h (List.mem_cons.mpr (Or.inr hc)))
    simp [breakAt, if_neg hne, ih']

/-- One regex-scan pass over the input; `fuel` bounds the number of steps and
is always given at least the input length, which suffices because every step
consumes at least one character. -/
def tokenizeF : Nat → Str → List Str
  | 0, _ => []
  | _, [] => []
  | fuel + 1, c :: rest =>
    if isJsSpace c then tokenizeF fuel rest
    else if c = dq then
      match breakAt dq rest with
      | some (tok, rest') =>
        (if tok = [] then [dq, dq] else tok) :: tokenizeF fuel rest'
      | none => tokenizeF fuel rest
    else if c = sqc then
      match breakAt sqc rest with
      | some (tok, rest') =>
        (if tok = [] then [sqc, sqc] else tok) :: tokenizeF fuel rest'
      | none => tokenizeF fuel rest
    else
      (c :: rest.takeWhile isWordChar) :: tokenizeF fuel (rest.dropWhile isWordChar)

/-- The token list produced by the regex loop of parseCommand. -/
def tokenize (s : Str) : List Str := tokenizeF s.length s

theorem lengthDropWhileLe (p : Char → Bool) (l : Str) :
    (l.dropWhile p).length ≤ l.length := by
  induction l with
  | nil => simp
  | cons a rest ih =>
    rw [List.dropWhile_cons]
    split
    · exact Nat.le_succ_of_le ih
    · simp

theorem tokenizeF_congr :
    ∀ f₁ f₂ s, s.length ≤ f₁ → s.length ≤ f₂ → tokenizeF f₁ s = tokenizeF f₂ s := by
  intro f₁
  induction f₁ with
  | zero =>
    intro f₂ s h₁ _
    rcases s with _ | ⟨c, rest⟩
    · cases f₂ <;> simp [tokenizeF]
    · simp at h₁
  | succ g ih =>
    intro f₂ s h₁ h₂
    rcases s with _ | ⟨c, rest⟩
    · cases f₂ <;> simp [tokenizeF]
    · rcases f₂ with _ | h
      · simp at h₂
      · have hr₁ : rest.length ≤ g := Nat.lt_succ_iff.mp h₁
        have hr₂ : rest.length ≤ h := Nat.lt_succ_iff.mp h₂
        simp only [tokenizeF]
        split
        · exact ih h rest hr₁ hr₂
        · split
          · rcases hb : breakAt dq rest with _ | ⟨tok, rest'⟩
            · exact ih h rest hr₁ hr₂
            · have hl : rest'.length ≤ rest.length :=
                Nat.le_of_lt (breakAt_length dq rest _ hb)
              simp only [ih h rest' (le_trans hl hr₁) (le_trans hl hr₂)]
          · split
            · rcases hb : breakAt sqc rest with _ | ⟨tok, rest'⟩
              · exact ih h rest hr₁ hr₂
              · have hl : rest'.length ≤ rest.length :=
                  Nat.le_of_lt (breakAt_length sqc rest _ hb)
                simp only [ih h rest' (le_trans hl hr₁) (le_trans hl hr₂)]
            · have hl : (rest.dropWhile isWordChar).length ≤ rest.length :=
                lengthDropWhileLe isWordChar rest
              rw [ih h (rest.dropWhile isWordChar) (le_trans hl hr₁) (le_trans hl hr₂)]

theorem tokenize_space {c : Char} (s : Str) (h : isJsSpace c) :
    tokenize (c :: s) = tokenize s := by
  simp only [tokenize, List.length_cons, tokenizeF, h, if_true]

theorem tokenize_dquote (s tok rest : Str) (hb : breakAt dq s = some (tok, rest)) :
    tokenize (dq :: s) = (if tok = [] then [dq, dq] else tok) :: tokenize rest := by
  have hd : isJsSpace dq = false := by decide
  have hc := tokenizeF_congr s.length rest.length rest
    (Nat.le_of_lt (breakAt_length dq s _ hb)) (le_refl _)
  simp only [tokenize, List.length_cons, tokenizeF, hd, Bool.false_eq_true, if_false,
    eq_self_iff_true, if_true, hb, hc]

theorem tokenize_squote (s tok rest : Str) (hb : breakAt sqc s = some (tok, rest)) :
    tokenize (sqc :: s) = (if tok = [] then [sqc, sqc] else tok) :: tokenize rest := by
  have hd : isJsSpace sqc = false := by decide
  have hq : (sqc = dq) = False := eq_false (by decide)
  have hc := tokenizeF_congr s.length rest.length rest
    (Nat.le_of_lt (breakAt_length sqc s _ hb)) (le_refl _)
  simp only [tokenize, List.length_cons, tokenizeF, hd, Bool.false_eq_true, if_false, hq,
    eq_self_iff_true, if_true, hb, hc]

theorem isWordChar_props {c : Char} (h : isWordChar c) :
    isJsSpace c = false ∧ c ≠ dq ∧ c ≠ sqc := by
  simp only [isWordChar, decide_eq_true_eq] at h
  exact ⟨by simpa using h.1, h.2.1, h.2.2⟩

theorem tokenize_word {c : Char} (s : Str) (h : isWordChar c) :
    tokenize (c :: s) = (c :: s.takeWhile isWordChar) :: tokenize (s.dropWhile isWordChar) := by
  obtain ⟨h1, h2, h3⟩ := isWordChar_props h
  have hc := tokenizeF_congr s.length (s.dropWhile isWordChar).length (s.dropWhile isWordChar)
    (lengthDropWhileLe isWordChar s) (le_refl _)
  simp only [tokenize, List.length_cons, tokenizeF, h1, Bool.false_eq_true, if_false,
    eq_false h2, eq_false h3, hc]

/-- String.prototype.trim (ASCII whitespace). -/
def jsTrim (s : Str) : Str :=
  ((s.dropWhile isJsSpace).reverse.dropWhile isJsSpace).reverse

/-- JavaScript String.prototype.toLowerCase (ASCII part). -/
def toLowerStr (s : Str) : Str := s.map Char.toLower

/-- parseCommand from TerminalAppComponent.tsx: trim, tokenize respecting
quotes, then take the first token lowercased as the command and the rest as
arguments.  When the trimmed input is non-empty but produces no token (for
example a single unmatched quote), the source crashes on
`parts[0].toLowerCase()`; that case is `none`. -/
def parseCommand (command : Str) : Option (Str × List Str) :=
  let trimmedCommand := jsTrim command
  if trimmedCommand = [] then some ([], [])
  else
    match tokenize trimmedCommand with
    | [] => none
    | p :: ps => some (toLowerStr p, ps)

/-
The terminal command dispatcher (processCommand in TerminalAppComponent.tsx).
Only the returned result object and the navigation target are modelled; pure
UI effects (saving files, launching apps, entering vim or AI mode, clearing
the screen) are dropped, and clock/locale-dependent strings (date output,
history timestamp rendering) are inputs in the environment.
-/

/-- A file entry from the virtual filesystem hook. -/
structure TermFile where
  name : Str
  path : Str
  isDirectory : Bool
  contentIsBlob : Bool
  content : Str
deriving Repr, DecidableEq

/-- A saved command-history entry (loadTerminalCommandHistory). -/
structure HistEntry where
  command : String
  month : Nat
  day : Nat
  hour : Nat
  minute : Nat
deriving Repr, DecidableEq

/-- Environment read by processCommand: the files of the current directory,
the current path, the persisted history, and the locale-rendered date. -/
structure TermEnv where
  files : List TermFile
  currentPath : Str
  savedHistory : List HistEntry
  dateNow : String

/-- Result of one command: output text, error flag, and the navigation target
passed to navigateToPath when the command changes directory. -/
structure CmdResult where
  output : String
  isError : Bool
  navigateTo : Option Str
deriving Repr, DecidableEq

/-- Whether `pre` is a prefix of `s` (String.prototype.startsWith). -/
def hasPrefixStr : Str → Str → Bool
  | _, [] => true
  | [], _ :: _ => false
  | a :: s, b :: p => a = b && hasPrefixStr s p

/-- String.prototype.endsWith("/"). -/
def endsWithSlash (s : Str) : Bool := s.getLast? = some '/'

/-- path.split("/").filter(Boolean): the non-empty path segments. -/
def splitSegs (p : Str) : List Str := (splitOnC '/' p).filter (· ≠ [])

/-- The parent path computed by `cd ..`. -/
def parentOfPath (currentPath : Str) : Str :=
  let pathParts := splitSegs currentPath
  if pathParts.length > 0 then '/' :: joinC '/' pathParts.dropLast else "/".data

/-- String.prototype.padStart with a single pad character. -/
def jsPadStart (s : String) (n : Nat) (c : Char) : String :=
  ⟨List.replicate (n - s.length) c ++ s.data⟩

/-- String.prototype.padEnd with a single pad character. -/
def jsPadEnd (s : String) (n : Nat) (c : Char) : String :=
  ⟨s.data ++ List.replicate (n - s.length) c⟩

/-- Format one history row (index, truncated padded command, MM/DD HH:MM). -/
def histLine (indexPadding longestCmd : Nat) (idx : Nat) (e : HistEntry) : String :=
  let indexStr := jsPadStart (toString (idx + 1)) indexPadding ' '
  let displayCmd :=
    if e.command.length > 25 then ⟨e.command.data.take 22⟩ ++ "..." else e.command
  let paddedCmd := jsPadEnd displayCmd longestCmd ' '
  let dateStr :=
    jsPadStart (toString (e.month + 1)) 2 '0' ++ "/" ++ jsPadStart (toString e.day) 2 '0' ++
    " " ++ jsPadStart (toString e.hour) 2 '0' ++ ":" ++ jsPadStart (toString e.minute) 2 '0'
  indexStr ++ "  " ++ paddedCmd ++ "  # " ++ dateStr

/-- The `history` command output for a non-empty saved history. -/
def histOutput (cmdHistory : List HistEntry) : String :=
  let indexPadding := (toString cmdHistory.length).length
  let longestCmd := min 25 (cmdHistory.foldl (fun m e => max m e.command.length) 0)
  String.intercalate "\n" (cmdHistory.enum.map fun p => histLine indexPadding longestCmd p.1 p.2)

/-- The static help text. -/
def helpText : String := "\nnavigation & files\n  pwd              show current directory\n  ls               list directory contents  \n  cd <dir>         change directory\n  cat <file>       view file contents\n  touch <file>     create empty file\n  mkdir <dir>      create directory\n  rm <file>        move file to trash\n  edit <file>      open in text editor\n  vim <file>       open in vim editor\n\nterminal\n  clear            clear screen\n  help             show this help\n  history          show command history\n  about            about terminal\n  echo <text>      display text\n  whoami           display current user\n  date             display current date/time\n\nassistant\n  ryo <prompt>     chat with ryo\n\n"

/-- The `cd` command with a path argument (neither missing nor ".."). -/
def cdTo (env : TermEnv) (arg0 : Str) : CmdResult :=
  let newPath :=
    if hasPrefixStr arg0 "/".data then arg0
    else (if env.currentPath = "/".data then [] else env.currentPath) ++ "/".data ++ arg0
  let normalizedPath :=
    if endsWithSlash newPath ∧ newPath ≠ "/".data then newPath.dropLast else newPath
  let pathParts := splitSegs normalizedPath
  let targetDir := pathParts.getLast?
  let parentSegs := pathParts.dropLast
  let parentPath := if parentSegs.length > 0 then '/' :: joinC '/' parentSegs else "/".data
  if normalizedPath = "/".data then ⟨"", false, some "/".data⟩
  else
    let parentPathWithSlash :=
      if endsWithSlash parentPath then parentPath else parentPath ++ "/".data
    let filesInParent := env.files.filter fun f =>
      hasPrefixStr f.path parentPathWithSlash &&
        !((f.path.drop parentPathWithSlash.length).contains '/')
    let targetExists := filesInParent.any fun f => some f.name = targetDir && f.isDirectory
    if targetExists then ⟨"", false, some normalizedPath⟩
    else ⟨"cd: " ++ arg0.asString ++ ": no such directory", true, none⟩

/-- The switch body of processCommand, dispatching on the lowercased command
name; translated case by case from the source. -/
def runCmd (env : TermEnv) (cmd : Str) (args : List Str) : CmdResult :=
  if cmd = "help".data then ⟨helpText, false, none⟩
  else if cmd = "clear".data then ⟨"", false, none⟩
  else if cmd = "pwd".data then ⟨env.currentPath.asString, false, none⟩
  else if cmd = "ls".data then
    if env.files.length = 0 then ⟨"no files found", false, none⟩
    else ⟨String.intercalate "\n" (env.files.map fun f => f.name.asString), false, none⟩
  else if cmd = "cd".data then
    match args with
    | [] => ⟨"", false, some "/".data⟩
    | arg0 :: _ =>
      if arg0 = "..".data then ⟨"", false, some (parentOfPath env.currentPath)⟩
      else cdTo env arg0
  else if cmd = "cat".data then
    match args with
    | [] => ⟨"usage: cat <filename>", true, none⟩
    | fileName :: _ =>
      match env.files.find? (fun f => f.name = fileName) with
      | none => ⟨"file not found: " ++ fileName.asString, true, none⟩
      | some file =>
        if file.isDirectory then
          ⟨fileName.asString ++ " is a directory, not a file", true, none⟩
        else if file.contentIsBlob then
          ⟨"Loading " ++ fileName.asString ++ "...", false, none⟩
        else if file.content = [] then ⟨fileName.asString ++ " is empty", false, none⟩
        else ⟨file.content.asString, false, none⟩
  else if cmd = "mkdir".data then
    ⟨"command not implemented: mkdir requires filesystem write access", true, none⟩
  else if cmd = "touch".data then
    match args with
    | [] => ⟨"usage: touch <filename>", true, none⟩
    | newFileName :: _ =>
      match env.files.find? (fun f => f.name = newFileName) with
      | some _ => ⟨"file already exists: " ++ newFileName.asString, true, none⟩
      | none => ⟨"created file: " ++ newFileName.asString, false, none⟩
  else if cmd = "rm".data then
    match args with
    | [] => ⟨"usage: rm <filename>", true, none⟩
    | fileToDelete :: _ =>
      match env.files.find? (fun f => f.name = fileToDelete) with
      | none => ⟨"file not found: " ++ fileToDelete.asString, true, none⟩
      | some _ => ⟨"moved to trash: " ++ fileToDelete.asString, false, none⟩
  else if cmd = "edit".data then
    match args with
    | [] => ⟨"usage: edit <filename>", true, none⟩
    | fileToEdit :: _ =>
      match env.files.find? (fun f => f.name = fileToEdit) with
      | none => ⟨"file not found: " ++ fileToEdit.asString, true, none⟩
      | some f =>
        if f.isDirectory then
          ⟨fileToEdit.asString ++ " is a directory, not a file", true, none⟩
        else ⟨"opening " ++ fileToEdit.asString ++ " in textedit...", false, none⟩
  else if cmd = "about".data then ⟨"opening about dialog...", false, none⟩
  else if cmd = "history".data then
    if env.savedHistory.length = 0 then ⟨"no command history", false, none⟩
    else ⟨histOutput env.savedHistory, false, none⟩
  else if cmd = "echo".data then
    ⟨String.intercalate " " (args.map List.asString), false, none⟩
  else if cmd = "whoami".data then ⟨"you", false, none⟩
  else if cmd = "date".data then ⟨env.dateNow, false, none⟩
  else if cmd = "vim".data then
    match args with
    | [] => ⟨"usage: vim <filename>", true, none⟩
    | fileName :: _ =>
      match env.files.find? (fun f => f.name = fileName) with
      | none => ⟨"file not found: " ++ fileName.asString, true, none⟩
      | some f =>
        if f.isDirectory then
          ⟨fileName.asString ++ " is a directory, not a file", true, none⟩
        else ⟨"opening " ++ fileName.asString ++ " in vim...", false, none⟩
  else if cmd = "ai".data ∨ cmd = "chat".data ∨ cmd = "ryo".data then
    if args.length > 0 then
      ⟨"ask ryo anything. type \x27exit\x27 to return to terminal.\n→ from your command: " ++
        String.intercalate " " (args.map List.asString), false, none⟩
    else ⟨"ask ryo anything. type \x27exit\x27 to return to terminal.", false, none⟩
  else
    ⟨"command not found: " ++ cmd.asString ++
      ". type \x27help\x27 for a list of available commands.", true, none⟩

/-- processCommand: parse then dispatch; `none` when parseCommand crashes on
an input that is non-empty after trimming but yields no token. -/
def processCommand (env : TermEnv) (command : Str) : Option CmdResult :=
  (parseCommand command).map fun p => runCmd env p.1 p.2

/-- The command names with a dedicated switch case. -/
def knownCmds : List Str :=
  ["help".data, "clear".data, "pwd".data, "ls".data, "cd".data, "cat".data,
   "mkdir".data, "touch".data, "rm".data, "edit".data, "about".data,
   "history".data, "echo".data, "whoami".data, "date".data, "vim".data,
   "ai".data, "chat".data, "ryo".data]

/-
Chat room message handling (useChatCore in useChatCore.ts / helpers).  A room
message after timestamp normalization (string timestamps are converted with
Date.parse before any list operation, so timestamps are numbers here).
-/

/-- A room chat message as held in roomMessages state. -/
structure RoomMsg where
  id : String
  roomId : String
  username : String
  content : String
  timestamp : Nat
  isPending : Bool
deriving Repr, DecidableEq

/-- The comparator `(a, b) => a.timestamp - b.timestamp` used with
Array.prototype.sort. -/
def tsLe (a b : RoomMsg) : Bool := a.timestamp ≤ b.timestamp

/-- Array.prototype.sort with the timestamp comparator (stable, as in ES2019+). -/
def sortMsgs (l : List RoomMsg) : List RoomMsg := l.mergeSort tsLe

/-- Sortedness by timestamp. -/
def SortedByTs (l : List RoomMsg) : Prop :=
  List.Pairwise (fun a b => a.timestamp ≤ b.timestamp) l

/-- The Pusher room-message handler: for the current room, drop duplicates by
id, otherwise append the (normalized) message and re-sort by timestamp. -/
def handleRoomMessage (currentRoomId : Option String) (dataRoomId : String)
    (m : RoomMsg) (prevMessages : List RoomMsg) : List RoomMsg :=
  match currentRoomId with
  | none => prevMessages
  | some rid =>
    if dataRoomId = rid then
      if prevMessages.any (fun msg => msg.id = m.id) then prevMessages
      else sortMsgs (prevMessages ++ [m])
    else prevMessages

/-- Optimistic append of a locally sent message (handleSubmit). -/
def optimisticAppend (newMessage : RoomMsg) (prev : List RoomMsg) : List RoomMsg :=
  sortMsgs (prev ++ [newMessage])

/-- The send-confirmation handler (the `.then` branch of handleSubmit when the
server returns the message): replace the pending message by the confirmed one,
unless the confirmed message already arrived via Pusher, in which case the
pending one is removed. -/
def onSendSuccess (tempId : String) (confirmedMessage : RoomMsg)
    (prev : List RoomMsg) : List RoomMsg :=
  let updated := prev.map fun msg => if msg.id = tempId then confirmedMessage else msg
  if ¬ prev.any (fun msg => msg.id = confirmedMessage.id && msg.id ≠ tempId) then
    sortMsgs updated
  else
    sortMsgs (prev.filter fun msg => msg.id ≠ tempId)

/-- The send-failure handler (the `.catch` branch of handleSubmit, also
reached when the response has no message): remove the pending message; no
retry is issued and no error message is appended. -/
def onSendError (tempId : String) (prev : List RoomMsg) : List RoomMsg :=
  prev.filter fun msg => msg.id ≠ tempId

/-- Outcome of the send request: a confirmed message, or a missing message /
network failure, both of which flow into the catch handler. -/
def sendResult (resp : Option RoomMsg) (tempId : String)
    (prev : List RoomMsg) : List RoomMsg :=
  match resp with
  | some confirmedMessage => onSendSuccess tempId confirmedMessage prev
  | none => onSendError tempId prev

/-- Sorting step applied to messages fetched from the API
(fetchAndSetRoomMessages). -/
def sortFetched (fetchedMessages : List RoomMsg) : List RoomMsg :=
  sortMsgs fetchedMessages

theorem sortMsgs_sorted (l : List RoomMsg) : SortedByTs (sortMsgs l) := by
  have h := @List.sorted_mergeSort RoomMsg tsLe
    (fun a b c hab hbc => by
      simp only [tsLe, decide_eq_true_eq] at *; exact le_trans hab hbc)
    (fun a b => by
      simp only [tsLe]
      rcases le_total a.timestamp b.timestamp with h | h <;> simp [h])
    l
  refine List.Pairwise.imp ?_ h
  intro a b hab
  simpa [tsLe] using hab

theorem sortMsgs_perm (l : List RoomMsg) : (sortMsgs l).Perm l :=
  List.mergeSort_perm l tsLe

/-
applyTextEditChanges (textEditUtils.ts): applies a list of line edits to a
document, sorting them by line number, skipping edits whose (possibly
adjusted) line number is out of range at the time they are processed, and
shifting the line numbers of the remaining edits after each applied edit.
-/

/-- The kind of a TextEdit markup operation. -/
inductive EditKind where
  | insert
  | replace
  | delete
deriving Repr, DecidableEq

/-- A TextEdit operation: 1-indexed line number (adjustments can drive it
negative, hence an integer), optional count, optional content. -/
structure TextEditOperation where
  type : EditKind
  line : Int
  count : Option Int
  content : Option Str
deriving Repr, DecidableEq

/-- `edit.count || 1`: a missing or zero (falsy) count means 1. -/
def effCount (e : TextEditOperation) : Int :=
  match e.count with
  | none => 1
  | some c => if c = 0 then 1 else c

/-- Apply a single validated edit; returns the new lines and the value the
source assigns to lineCountChange. -/
def applyOneEdit (lines : List Str) (e : TextEditOperation) : List Str × Int :=
  let lineIndex : Int := e.line - 1
  match e.type with
  | .insert =>
    match e.content with
    | some c =>
      let newLines := splitOnC '\n' c
      let li := if lineIndex > (lines.length : Int) then (lines.length : Int) else lineIndex
      (jsSplice lines li.toNat 0 newLines, (newLines.length : Int))
    | none => (lines, 0)
  | .replace =>
    match e.content with
    | some c =>
      let count := min (effCount e) ((lines.length : Int) - lineIndex)
      let newLines := splitOnC '\n' c
      let li := if lineIndex ≥ (lines.length : Int) then max 0 ((lines.length : Int) - 1) else lineIndex
      (jsSplice lines li.toNat count.toNat newLines, (newLines.length : Int) - count)
    | none => (lines, 0)
  | .delete =>
    let count := min (effCount e) ((lines.length : Int) - lineIndex)
    (jsSplice lines lineIndex.toNat count.toNat [], -count)

/-- Adjust the line numbers of the remaining edits after an applied edit, as
in the inner for-loop of the source. -/
def adjustEdits (e : TextEditOperation) (lineCountChange : Int) (newLen : Nat)
    (rest : List TextEditOperation) : List TextEditOperation :=
  if lineCountChange = 0 then rest
  else
    rest.map fun ej =>
      let adjustmentThreshold : Int :=
        match e.type with
        | .replace | .delete => e.line + effCount e - 1
        | .insert => e.line
      if ej.line > adjustmentThreshold then
        let newLine := ej.line + lineCountChange
        if newLine ≤ 0 then { ej with line := 1 }
        else
          match ej.type with
          | .insert => { ej with line := newLine }
          | .replace | .delete =>
            if newLine > (newLen : Int) then { ej with line := max 1 (newLen : Int) }
            else { ej with line := newLine }
      else ej

theorem adjustEdits_length (e : TextEditOperation) (ch : Int) (n : Nat)
    (rest : List TextEditOperation) : (adjustEdits e ch n rest).length = rest.length := by
  unfold adjustEdits
  split
  · rfl
  · simp

/-- Whether an edit fails the range validation at the head of the loop body. -/
def invalidEdit (lines : List Str) (e : TextEditOperation) : Bool :=
  match e.type with
  | .insert => e.line - 1 < 0 || e.line - 1 > (lines.length : Int)
  | .replace | .delete => e.line - 1 < 0 || e.line - 1 ≥ (lines.length : Int)

/-- The main edit loop of applyTextEditChanges over the sorted edit list. -/
def applyEditsLoop (lines : List Str) : List TextEditOperation → List Str
  | [] => lines
  | e :: rest =>
    if invalidEdit lines e then applyEditsLoop lines rest
    else
      let r := applyOneEdit lines e
      applyEditsLoop r.1 (adjustEdits e r.2 r.1.length rest)
termination_by l => l.length
decreasing_by
  · simp
  · simp [adjustEdits_length]

/-- applyTextEditChanges: early return on an empty edit list, otherwise split
into lines, sort the edits by line number, run the loop, and re-join. -/
def applyTextEditChanges (content : Str) (edits : List TextEditOperation) : Str :=
  if edits.length = 0 then content
  else
    let lines := splitOnC '\n' content
    let editsCopy := edits.mergeSort fun a b => a.line ≤ b.line
    joinC '\n' (applyEditsLoop lines editsCopy)

/-
EmailDataEditor.tsx: the ad hoc JSON validation performed on save.  JSON
values are modelled structurally; JavaScript truthiness, Array.isArray and
`typeof x === "object"` are translated exactly (typeof null is "object", and
arrays are objects, but null is falsy).
-/

/-- A parsed JSON value. -/
inductive JVal where
  | jnull
  | jbool (b : Bool)
  | jnum (n : Int)
  | jstr (s : String)
  | jarr (elems : List JVal)
  | jobj (fields : List (String × JVal))

/-- Field lookup on a non-null value: objects have their (own) string-keyed
fields; every other non-null value yields undefined (`none`) for these keys. -/
def lookupField (v : JVal) (k : String) : Option JVal :=
  match v with
  | .jobj fields => (fields.find? fun p => p.1 = k).map Prod.snd
  | _ => none

/-- JavaScript property access `v[k]` inside the try block: on null it throws
a TypeError, whose engine-specific message `tyMsg` the catch block displays;
on any non-null value it yields the field or undefined without throwing
(JSON.parse never produces undefined, so null is the only parsed value whose
property access throws). -/
def getField (v : JVal) (k : String) (tyMsg : String) : Except String (Option JVal) :=
  match v with
  | .jnull => .error tyMsg
  | _ => .ok (lookupField v k)

/-- JavaScript truthiness of a field access result (undefined is falsy). -/
def truthy : Option JVal → Bool
  | none => false
  | some .jnull => false
  | some (.jbool b) => b
  | some (.jnum n) => n ≠ 0
  | some (.jstr s) => s ≠ ""
  | some (.jarr _) => true
  | some (.jobj _) => true

/-- Array.isArray on a field access result. -/
def isArrayField : Option JVal → Bool
  | some (.jarr _) => true
  | _ => false

/-- `typeof x === "object"` on a field access result: null, arrays and
objects all have typeof "object". -/
def typeofObject : Option JVal → Bool
  | some .jnull => true
  | some (.jarr _) => true
  | some (.jobj _) => true
  | _ => false

/-- handleSave from EmailDataEditor.tsx: `none` models a JSON.parse failure
(whose thrown SyntaxError message `parseErrMsg` becomes the error); otherwise
the four ad hoc checks run in order, each property access going through
`getField` so that a null parsed value throws a TypeError at the first check
(message `tyMsg "emails"`); only if every check passes is the parsed value
handed to onSave (the `Except.ok` case). -/
def handleSave (parsed : Option JVal) (parseErrMsg : String)
    (tyMsg : String → String) : Except String JVal :=
  match parsed with
  | none => .error parseErrMsg
  | some parsedData =>
    match getField parsedData "emails" (tyMsg "emails") with
    | .error m => .error m
    | .ok emails =>
      if ¬ truthy emails ∨ ¬ isArrayField emails then
        .error "Invalid data: \x27emails\x27 must be an array"
      else
        match getField parsedData "threads" (tyMsg "threads") with
        | .error m => .error m
        | .ok threads =>
          if ¬ truthy threads ∨ ¬ isArrayField threads then
            .error "Invalid data: \x27threads\x27 must be an array"
          else
            match getField parsedData "labels" (tyMsg "labels") with
            | .error m => .error m
            | .ok labels =>
              if ¬ truthy labels ∨ ¬ isArrayField labels then
                .error "Invalid data: \x27labels\x27 must be an array"
              else
                match getField parsedData "user" (tyMsg "user") with
                | .error m => .error m
                | .ok user =>
                  if ¬ truthy user ∨ ¬ typeofObject user then
                    .error "Invalid data: \x27user\x27 must be an object"
                  else .ok parsedData

/-
Claims about the chat layer.
-/

/-- C3: an incoming Pusher message for the current room is merged with
de-duplication by id: a duplicate leaves the list unchanged; a new message is
appended and the result is re-sorted to nondecreasing timestamp order. -/
theorem C3_room_message_merge (cur : Option String) (rid : String) (m : RoomMsg)
    (prev : List RoomMsg) (hcur : cur = some rid) :
    (prev.any (fun msg => msg.id = m.id) = true →
      handleRoomMessage cur rid m prev = prev) ∧
    (prev.any (fun msg => msg.id = m.id) = false →
      (handleRoomMessage cur rid m prev).Perm (prev ++ [m]) ∧
      SortedByTs (handleRoomMessage cur rid m prev)) := by
  subst hcur
  simp only [handleRoomMessage]
  rw [if_pos trivial]
  constructor
  · intro h
    rw [if_pos h]
  · intro h
    rw [if_neg (by simp [h])]
    exact ⟨sortMsgs_perm _, sortMsgs_sorted _⟩

/-- Witness for C3 at concrete inputs: a duplicate id leaves the list
unchanged, and a fresh message yields a sorted list. -/
theorem C3_room_message_merge_witness :
    (handleRoomMessage (some "r") "r" ⟨"m1", "r", "u", "hi", 10, false⟩
      [⟨"m1", "r", "u", "old", 3, false⟩] = [⟨"m1", "r", "u", "old", 3, false⟩]) ∧
    SortedByTs (handleRoomMessage (some "r") "r" ⟨"m2", "r", "u", "yo", 1, false⟩
      [⟨"m1", "r", "u", "old", 3, false⟩]) :=
  ⟨(C3_room_message_merge (some "r") "r" _ _ rfl).1 (by decide),
   ((C3_room_message_merge (some "r") "r" _ _ rfl).2 (by decide)).2⟩

/-- C6: on a send failure (network error or a response without a message),
the catch handler only removes the optimistic pending message: every message
it keeps was already present, the pending id is gone, all other messages are
kept, and no error message is added to the transcript. -/
theorem C6_send_failure_drops (tempId : String) (prev : List RoomMsg) :
    (∀ m ∈ onSendError tempId prev, m ∈ prev) ∧
    (∀ m ∈ onSendError tempId prev, m.id ≠ tempId) ∧
    (∀ m ∈ prev, m.id ≠ tempId → m ∈ onSendError tempId prev) ∧
    sendResult none tempId prev = onSendError tempId prev := by
  refine ⟨?_, ?_, ?_, rfl⟩
  · intro m hm
    exact (List.mem_filter.mp hm).1
  · intro m hm
    simpa using (List.mem_filter.mp hm).2
  · intro m hm h
    exact List.mem_filter.mpr ⟨hm, by simpa using h⟩

/-- Witness for C6 at concrete inputs: dropping a pending message keeps the
other message and removes the pending id. -/
theorem C6_send_failure_drops_witness :
    (⟨"a", "r", "u", "x", 1, false⟩ : RoomMsg) ∈
      onSendError "tmp" [⟨"a", "r", "u", "x", 1, false⟩, ⟨"tmp", "r", "u", "y", 2, true⟩] ∧
    ∀ m ∈ onSendError "tmp"
      [(⟨"a", "r", "u", "x", 1, false⟩ : RoomMsg), ⟨"tmp", "r", "u", "y", 2, true⟩],
      m.id ≠ "tmp" :=
  ⟨(C6_send_failure_drops "tmp" _).2.2.1 _ (by decide) (by decide),
   (C6_send_failure_drops "tmp" _).2.1⟩

/-- C9: the four operations that write the room-message list all leave it in
nondecreasing timestamp order (the Pusher handler preserves sortedness, and
the other three sort unconditionally). -/
theorem C9_sorted_invariant (cur : Option String) (rid : String)
    (m newMessage confirmed : RoomMsg) (tempId : String)
    (prev fetched : List RoomMsg) :
    (SortedByTs prev → SortedByTs (handleRoomMessage cur rid m prev)) ∧
    SortedByTs (optimisticAppend newMessage prev) ∧
    SortedByTs (onSendSuccess tempId confirmed prev) ∧
    SortedByTs (sortFetched fetched) := by
  refine ⟨?_, sortMsgs_sorted _, ?_, sortMsgs_sorted _⟩
  · intro hs
    rcases cur with _ | rid'
    · simpa only [handleRoomMessage] using hs
    · simp only [handleRoomMessage]
      split
      · split
        · exact hs
        · exact sortMsgs_sorted _
      · exact hs
  · simp only [onSendSuccess]
    split
    · exact sortMsgs_sorted _
    · exact sortMsgs_sorted _

/-- Witness for C9 at concrete inputs. -/
theorem C9_sorted_invariant_witness :
    SortedByTs (handleRoomMessage (some "r") "r" ⟨"m2", "r", "u", "yo", 1, false⟩
      [⟨"m1", "r", "u", "hi", 3, false⟩]) ∧
    SortedByTs (optimisticAppend ⟨"t", "r", "u", "new", 0, true⟩
      [⟨"m1", "r", "u", "hi", 3, false⟩]) :=
  ⟨(C9_sorted_invariant (some "r") "r" _ ⟨"t", "r", "u", "new", 0, true⟩
      ⟨"c", "r", "u", "c", 9, false⟩ "t" _ []).1 (by simp [SortedByTs]),
   (C9_sorted_invariant (some "r") "r" ⟨"m2", "r", "u", "yo", 1, false⟩ _
      ⟨"c", "r", "u", "c", 9, false⟩ "t" _ []).2.1⟩

/-
Claims about vim mode.
-/

theorem eraseIdx_ne_nil_of_one_lt {l : List Str} (h : 1 < l.length) (i : Nat) :
    l.eraseIdx i ≠ [] := by
  intro hnil
  have := congrArg List.length hnil
  rw [List.length_eraseIdx] at this
  simp at this
  split at this <;> omega

theorem eraseIdx_succ_ne_nil {l : List Str} (h : l ≠ []) (i : Nat) :
    l.eraseIdx (i + 1) ≠ [] := by
  rcases l with _ | ⟨a, t⟩
  · exact absurd rfl h
  · simp [List.eraseIdx]

theorem set_ne_nil {l : List Str} (h : l ≠ []) (i : Nat) (a : Str) :
    l.set i a ≠ [] := by
  intro hnil
  have := congrArg List.length hnil
  rw [List.length_set] at this
  exact h (List.length_eq_zero.mp this)

theorem jsSplice_insert_ne_nil (l : List Str) (s d : Nat) (a : Str) (items : List Str) :
    jsSplice l s d (a :: items) ≠ [] := by
  simp [jsSplice]

/-- C1 counterexample: on a one-line buffer, a quick double `d` does not
delete the cursor line (which would leave an empty buffer); it keeps one line
with cleared content, so the claim fails for one-line buffers. -/
theorem C1_dd_counterexample :
    (dKeyPress ⟨["hello".data], 0, 0, [], "d".data, 100⟩ 200).lines = [[]] ∧
    ¬ (dKeyPress ⟨["hello".data], 0, 0, [], "d".data, 100⟩ 200).lines =
        (["hello".data] : List Str).eraseIdx 0 := by
  constructor
  · decide
  · decide

/-- C1 (amended): on a buffer with at least two lines, a quick double `d`
removes the cursor line and copies it to the clipboard; this holds for every
such buffer and every in-range cursor position. -/
theorem C1_dd_deletes_line (s : VimState) (now : Nat)
    (hkey : s.lastKey = "d".data) (htime : now - s.lastTime < 500)
    (hlen : 2 ≤ s.lines.length) (hcur : s.cursorLine < s.lines.length) :
    (dKeyPress s now).lines = s.lines.eraseIdx s.cursorLine ∧
    (dKeyPress s now).clipboard = s.lines.get ⟨s.cursorLine, hcur⟩ := by
  unfold dKeyPress
  rw [if_pos ⟨hkey, htime⟩, if_pos (by omega)]
  refine ⟨rfl, ?_⟩
  show s.lines.getD s.cursorLine [] = _
  rw [List.getD_eq_getElem?_getD, List.getElem?_eq_getElem hcur]
  simp [List.get_eq_getElem]

/-- Witness for C1 (amended) at a concrete two-line buffer. -/
theorem C1_dd_deletes_line_witness :
    (dKeyPress ⟨["a".data, "b".data], 0, 0, [], "d".data, 0⟩ 100).lines =
      (["a".data, "b".data] : List Str).eraseIdx 0 ∧
    (dKeyPress ⟨["a".data, "b".data], 0, 0, [], "d".data, 0⟩ 100).clipboard =
      (["a".data, "b".data] : List Str).get ⟨0, by decide⟩ :=
  C1_dd_deletes_line ⟨["a".data, "b".data], 0, 0, [], "d".data, 0⟩ 100
    rfl (by decide) (by decide) (by decide)

/-- C8: every buffer-modifying vim operation keeps the buffer non-empty, and
dd on a one-line buffer clears the line instead of removing it, still copying
the old content to the clipboard. -/
theorem C8_buffer_never_empty (s : VimState) (now : Nat) (txt : Str)
    (h : s.lines ≠ []) :
    (dKeyPress s now).lines ≠ [] ∧
    (normalO s).lines ≠ [] ∧
    (normalOBig s).lines ≠ [] ∧
    (normalP s).lines ≠ [] ∧
    (yankLine s).lines ≠ [] ∧
    (insertBackspace s).lines ≠ [] ∧
    (insertEnterKey s).lines ≠ [] ∧
    (insertTab s).lines ≠ [] ∧
    (insertDelete s).lines ≠ [] ∧
    (vimTextInput s txt).lines ≠ [] ∧
    (∀ l, s.lines = [l] → s.lastKey = "d".data → now - s.lastTime < 500 →
      (dKeyPress s now).lines = [[]] ∧ (dKeyPress s now).clipboard = l) := by
  refine ⟨?_, ?_, ?_, ?_, ?_, ?_, ?_, ?_, ?_, ?_, ?_⟩
  · unfold dKeyPress
    split
    · split
      · exact eraseIdx_ne_nil_of_one_lt (by omega) _
      · simp
    · exact h
  · exact jsSplice_insert_ne_nil _ _ _ _ _
  · exact jsSplice_insert_ne_nil _ _ _ _ _
  · unfold normalP
    split
    · exact jsSplice_insert_ne_nil _ _ _ _ _
    · exact h
  · exact h
  · unfold insertBackspace
    split
    · rename_i hb
      rcases Nat.exists_eq_add_of_lt hb.2 with ⟨k, hk⟩
      have : s.cursorLine = k + 1 := by omega
      rw [this]
      exact eraseIdx_succ_ne_nil (set_ne_nil h _ _) k
    · split
      · exact set_ne_nil h _ _
      · exact h
  · exact jsSplice_insert_ne_nil _ _ _ _ _
  · exact set_ne_nil h _ _
  · simp only [insertDelete]
    split
    · exact eraseIdx_succ_ne_nil (set_ne_nil h _ _) _
    · split
      · exact set_ne_nil h _ _
      · exact h
  · exact set_ne_nil h _ _
  · intro l hl hkey htime
    unfold dKeyPress
    rw [if_pos ⟨hkey, htime⟩, if_neg (by rw [hl]; simp)]
    exact ⟨rfl, by rw [hl]; rfl⟩

/-- Witness for C8 at a concrete one-line buffer. -/
theorem C8_buffer_never_empty_witness :
    (dKeyPress ⟨["x".data], 0, 0, [], "d".data, 0⟩ 10).lines ≠ [] ∧
    ((dKeyPress ⟨["x".data], 0, 0, [], "d".data, 0⟩ 10).lines = [[]] ∧
     (dKeyPress ⟨["x".data], 0, 0, [], "d".data, 0⟩ 10).clipboard = "x".data) :=
  ⟨(C8_buffer_never_empty ⟨["x".data], 0, 0, [], "d".data, 0⟩ 10 [] (by decide)).1,
   (C8_buffer_never_empty ⟨["x".data], 0, 0, [], "d".data, 0⟩ 10 [] (by decide)).2.2.2.2.2.2.2.2.2.2
     "x".data rfl rfl (by decide)⟩

/-
Claim about the email data editor.
-/

theorem truthy_of_isArray {x : Option JVal} (h : isArrayField x = true) :
    truthy x = true := by
  rcases x with _ | v
  · simp [isArrayField] at h
  · rcases v <;> simp_all [isArrayField, truthy]

theorem getField_of_ne_null {d : JVal} (h : d ≠ .jnull) (k tm : String) :
    getField d k tm = .ok (lookupField d k) := by
  rcases d with _ | b | n | s | l | f
  · exact absurd rfl h
  all_goals rfl

/-- C7: handleSave hands the parsed value to onSave exactly when the emails,
threads and labels fields are arrays and the user field is truthy with typeof
"object"; a non-null value failing the first check yields the plain string
emails error, the saved value is the parsed value itself, a null parsed value
throws a TypeError at the first property access whose message is displayed,
and a parse failure yields the thrown SyntaxError message. -/
theorem C7_email_validation (d : JVal) (pe : String) (tyMsg : String → String) :
    (handleSave (some d) pe tyMsg = .ok d ↔
      (isArrayField (lookupField d "emails") = true ∧
       isArrayField (lookupField d "threads") = true ∧
       isArrayField (lookupField d "labels") = true ∧
       truthy (lookupField d "user") = true ∧
       typeofObject (lookupField d "user") = true)) ∧
    (d ≠ .jnull → isArrayField (lookupField d "emails") = false →
      handleSave (some d) pe tyMsg = .error "Invalid data: \x27emails\x27 must be an array") ∧
    (∀ v, handleSave (some d) pe tyMsg = .ok v → v = d) ∧
    handleSave (some .jnull) pe tyMsg = .error (tyMsg "emails") ∧
    handleSave none pe tyMsg = .error pe := by
  have harr : ∀ x : Option JVal,
      (¬ truthy x = true ∨ ¬ isArrayField x = true) ↔ ¬ isArrayField x = true := by
    intro x
    constructor
    · rintro (hx | hx)
      · intro ha
        exact hx (truthy_of_isArray ha)
      · exact hx
    · exact Or.inr
  by_cases hnull : d = .jnull
  · subst hnull
    refine ⟨?_, ?_, ?_, rfl, rfl⟩
    · constructor
      · intro he
        exact absurd he (by simp [handleSave, getField])
      · rintro ⟨h1, _⟩
        simp [lookupField, isArrayField] at h1
    · intro hne
      exact absurd rfl hne
    · intro v hv
      exact absurd hv (by simp [handleSave, getField])
  · have hg : ∀ k tm, getField d k tm = .ok (lookupField d k) := fun k tm =>
      getField_of_ne_null hnull k tm
    refine ⟨?_, ?_, ?_, rfl, rfl⟩
    · simp only [handleSave, hg]
      split
      · rename_i hc
        rw [harr] at hc
        constructor
        · intro he
          exact absurd he (by simp)
        · rintro ⟨h1, _⟩
          exact absurd h1 hc
      · split
        · rename_i hc
          rw [harr] at hc
          constructor
          · intro he
            exact absurd he (by simp)
          · rintro ⟨_, h2, _⟩
            exact absurd h2 hc
        · split
          · rename_i hc
            rw [harr] at hc
            constructor
            · intro he
              exact absurd he (by simp)
            · rintro ⟨_, _, h3, _⟩
              exact absurd h3 hc
          · split
            · rename_i hc
              constructor
              · intro he
                exact absurd he (by simp)
              · rintro ⟨_, _, _, h4, h5⟩
                rcases hc with hc | hc
                · exact absurd h4 hc
                · exact absurd h5 hc
            · rename_i h1 h2 h3 h4
              rw [harr] at h1 h2 h3
              push_neg at h1 h2 h3 h4
              simp only [Except.ok.injEq]
              constructor
              · intro _
                refine ⟨by simpa using h1, by simpa using h2, by simpa using h3, ?_, ?_⟩
                · simpa using h4.1
                · simpa using h4.2
              · intro _
                trivial
    · intro hne he
      simp only [handleSave, hg]
      rw [if_pos (by simp [he])]
    · intro v hv
      simp only [handleSave, hg] at hv
      split at hv
      · exact absurd hv (by simp)
      · split at hv
        · exact absurd hv (by simp)
        · split at hv
          · exact absurd hv (by simp)
          · split at hv
            · exact absurd hv (by simp)
            · simpa using hv.symm

/-- Witness for C7: a value passing all checks is saved as-is, a value whose
emails field is not an array produces the emails error string, and a null
parsed value surfaces the TypeError message of its first property access. -/
theorem C7_email_validation_witness :
    handleSave (some (.jobj [("emails", .jarr []), ("threads", .jarr []),
      ("labels", .jarr []), ("user", .jobj [])])) "x" (fun f => "TypeError: " ++ f) =
      .ok (.jobj [("emails", .jarr []), ("threads", .jarr []),
        ("labels", .jarr []), ("user", .jobj [])]) ∧
    handleSave (some (.jobj [("emails", .jnum 3)])) "x" (fun f => "TypeError: " ++ f) =
      .error "Invalid data: \x27emails\x27 must be an array" ∧
    handleSave (some .jnull) "x" (fun f => "TypeError: " ++ f) =
      .error "TypeError: emails" :=
  ⟨(C7_email_validation _ "x" _).1.mpr (by refine ⟨?_, ?_, ?_, ?_, ?_⟩ <;> rfl),
   (C7_email_validation _ "x" _).2.1 (fun h => JVal.noConfusion h) (by rfl),
   by
    have h := (C7_email_validation .jnull "x" (fun f => "TypeError: " ++ f)).2.2.2.1
    simpa using h⟩

/-
Claim about applyTextEditChanges.
-/

theorem invalidEdit_of_range (lines : List Str) (e : TextEditOperation)
    (h : (e.type = .insert ∧ (e.line < 1 ∨ e.line > (lines.length : Int) + 1)) ∨
      ((e.type = .replace ∨ e.type = .delete) ∧
        (e.line < 1 ∨ e.line > (lines.length : Int)))) :
    invalidEdit lines e = true := by
  rcases h with ⟨ht, hr⟩ | ⟨ht, hr⟩
  · simp only [invalidEdit, ht, Bool.or_eq_true, decide_eq_true_eq]
    omega
  · rcases ht with ht | ht <;>
      (simp only [invalidEdit, ht, Bool.or_eq_true, decide_eq_true_eq]; omega)

theorem applyEditsLoop_skip (lines : List Str) (e : TextEditOperation)
    (rest : List TextEditOperation) (h : invalidEdit lines e = true) :
    applyEditsLoop lines (e :: rest) = applyEditsLoop lines rest := by
  conv_lhs => rw [applyEditsLoop]
  rw [if_pos h]

/-- C10: out-of-range edits are skipped, not failed: the empty edit list
returns the document unchanged; in the edit loop, an insert whose 1-indexed
line is below 1 or above the line count plus one, or a replace/delete whose
line is below 1 or above the line count (counts taken at the moment the edit
is processed) is ignored, leaving document and remaining edits exactly as if
it were absent; and a single such edit leaves the document string unchanged. -/
theorem C10_out_of_range_edits :
    (∀ content : Str, applyTextEditChanges content [] = content) ∧
    (∀ (lines : List Str) (e : TextEditOperation) (rest : List TextEditOperation),
      ((e.type = .insert ∧ (e.line < 1 ∨ e.line > (lines.length : Int) + 1)) ∨
       ((e.type = .replace ∨ e.type = .delete) ∧
         (e.line < 1 ∨ e.line > (lines.length : Int)))) →
      applyEditsLoop lines (e :: rest) = applyEditsLoop lines rest) ∧
    (∀ (content : Str) (e : TextEditOperation),
      ((e.type = .insert ∧
         (e.line < 1 ∨ e.line > ((splitOnC '\n' content).length : Int) + 1)) ∨
       ((e.type = .replace ∨ e.type = .delete) ∧
         (e.line < 1 ∨ e.line > ((splitOnC '\n' content).length : Int)))) →
      applyTextEditChanges content [e] = content) := by
  refine ⟨fun content => rfl, ?_, ?_⟩
  · intro lines e rest h
    exact applyEditsLoop_skip lines e rest (invalidEdit_of_range lines e h)
  · intro content e h
    have hsort : ([e].mergeSort fun a b => a.line ≤ b.line) = [e] :=
      List.perm_singleton.mp (List.mergeSort_perm [e] _)
    simp only [applyTextEditChanges, List.length_cons, List.length_nil]
    rw [if_neg (by simp)]
    rw [hsort, applyEditsLoop_skip _ _ _ (invalidEdit_of_range _ e h)]
    rw [show applyEditsLoop (splitOnC '\n' content) [] = splitOnC '\n' content from by
      rw [applyEditsLoop]]
    exact joinC_splitOnC '\n' content

/-- Witness for C10: a delete aimed at line 5 of a two-line document changes
nothing. -/
theorem C10_out_of_range_edits_witness :
    applyTextEditChanges "a\nb".data [⟨.delete, 5, none, none⟩] = "a\nb".data :=
  C10_out_of_range_edits.2.2 "a\nb".data ⟨.delete, 5, none, none⟩
    (Or.inr ⟨Or.inr rfl, by decide⟩)

/-
Claim about `cd ..`.
-/

theorem joinC_pair (c : Char) (s t : Str) (ts : List Str) :
    joinC c (s :: t :: ts) = s ++ c :: joinC c (t :: ts) := by
  simp [joinC, List.intercalate, List.intersperse]

theorem filter_split_join (c : Char) (segs : List Str)
    (h : ∀ t ∈ segs, t ≠ [] ∧ c ∉ t) :
    (splitOnC c (joinC c segs)).filter (· ≠ []) = segs := by
  induction segs with
  | nil => simp [joinC, List.intercalate, splitOnC]
  | cons s rest ih =>
    rcases rest with _ | ⟨t, ts⟩
    · have hs := h s (List.mem_cons_self s [])
      have : joinC c [s] = s := by simp [joinC, List.intercalate]
      rw [this, splitOnC_eq_single c s hs.2]
      simp [hs.1]
    · have hs := h s (List.mem_cons_self s (t :: ts))
      rw [joinC_pair, splitOnC_append c s _ hs.2]
      rw [List.filter_cons_of_pos (by simpa using hs.1)]
      rw [ih (fun u hu => h u (List.mem_cons.mpr (Or.inr hu)))]

theorem mem_splitSegs (p : Str) : ∀ t ∈ splitSegs p, t ≠ [] ∧ '/' ∉ t := by
  intro t ht
  rw [splitSegs, List.mem_filter] at ht
  exact ⟨by simpa using ht.2, splitOnC_not_mem '/' p t ht.1⟩

theorem splitSegs_slash_cons (x : Str) :
    splitSegs ('/' :: x) = (splitOnC '/' x).filter (· ≠ []) := by
  simp [splitSegs, splitOnC]

/-- The path computed by `cd ..` has exactly the current path's segments
minus the last one. -/
theorem splitSegs_parentOfPath (p : Str) :
    splitSegs (parentOfPath p) = (splitSegs p).dropLast := by
  unfold parentOfPath
  by_cases hlen : (splitSegs p).length > 0
  · rw [if_pos hlen, splitSegs_slash_cons]
    exact filter_split_join '/' (splitSegs p).dropLast
      (fun t ht => mem_splitSegs p t (List.dropLast_subset _ ht))
  · rw [if_neg hlen]
    have hnil : splitSegs p = [] := List.length_eq_zero.mp (by omega)
    rw [hnil]
    decide

/-- At the root or with a single segment, `cd ..` goes to "/". -/
theorem parentOfPath_short (p : Str) (h : (splitSegs p).length ≤ 1) :
    parentOfPath p = "/".data := by
  unfold parentOfPath
  rcases hs : splitSegs p with _ | ⟨s, rest⟩
  · simp
  · have hr : rest = [] := by
      rw [hs] at h
      simpa using h
    subst hr
    simp only [List.length_cons, List.length_nil, gt_iff_lt, Nat.zero_lt_succ, if_pos,
      List.dropLast_single]
    decide

theorem runCmd_cd_dotdot (env : TermEnv) (rest : List Str) :
    runCmd env "cd".data ("..".data :: rest) =
      ⟨"", false, some (parentOfPath env.currentPath)⟩ := by
  unfold runCmd
  rw [if_neg (by decide), if_neg (by decide), if_neg (by decide), if_neg (by decide),
    if_pos rfl]
  dsimp only
  rw [if_pos rfl]

/-- C4: `cd ..` navigates to the parent: the target path's segments are the
current path's segments with the last removed (so it is "/" for the root or a
single-segment path), the output is empty and no error is reported. -/
theorem C4_cd_parent (env : TermEnv) (input : Str) (rest : List Str)
    (hparse : parseCommand input = some ("cd".data, "..".data :: rest)) :
    processCommand env input = some ⟨"", false, some (parentOfPath env.currentPath)⟩ ∧
    splitSegs (parentOfPath env.currentPath) = (splitSegs env.currentPath).dropLast ∧
    ((splitSegs env.currentPath).length ≤ 1 →
      parentOfPath env.currentPath = "/".data) := by
  refine ⟨?_, splitSegs_parentOfPath env.currentPath, parentOfPath_short env.currentPath⟩
  rw [processCommand, hparse]
  simp only [Option.map]
  rw [runCmd_cd_dotdot]

/-- Witness for C4: from /Documents/notes, `cd ..` goes to /Documents with
empty output and no error. -/
theorem C4_cd_parent_witness :
    processCommand ⟨[], "/Documents/notes".data, [], "now"⟩ "cd ..".data =
      some ⟨"", false, some (parentOfPath "/Documents/notes".data)⟩ ∧
    parentOfPath "/Documents/notes".data = "/Documents".data :=
  ⟨(C4_cd_parent ⟨[], "/Documents/notes".data, [], "now"⟩ "cd ..".data [] (by decide)).1,
   by decide⟩

/-
Claim about terminal error reporting.
-/

theorem runCmd_unknown (env : TermEnv) (cmd : Str) (args : List Str)
    (h : cmd ∉ knownCmds) :
    runCmd env cmd args = ⟨"command not found: " ++ cmd.asString ++
      ". type \x27help\x27 for a list of available commands.", true, none⟩ := by
  simp only [knownCmds, List.mem_cons, List.not_mem_nil, or_false, not_or] at h
  obtain ⟨h1, h2, h3, h4, h5, h6, h7, h8, h9, h10, h11, h12, h13, h14, h15, h16,
    h17, h18, h19⟩ := h
  unfold runCmd
  rw [if_neg h1, if_neg h2, if_neg h3, if_neg h4, if_neg h5, if_neg h6, if_neg h7,
    if_neg h8, if_neg h9, if_neg h10, if_neg h11, if_neg h12, if_neg h13, if_neg h14,
    if_neg h15, if_neg h16, if_neg (by simp [h17, h18, h19])]

theorem runCmd_cat_missing (env : TermEnv) (name : Str) (rest : List Str)
    (h : ∀ f ∈ env.files, f.name ≠ name) :
    runCmd env "cat".data (name :: rest) =
      ⟨"file not found: " ++ name.asString, true, none⟩ := by
  unfold runCmd
  rw [if_neg (by decide), if_neg (by decide), if_neg (by decide), if_neg (by decide),
    if_neg (by decide), if_pos rfl]
  have hf : env.files.find? (fun f => f.name = name) = none :=
    List.find?_eq_none.mpr (fun f hf => by simpa using h f hf)
  dsimp only
  rw [hf]

/-- C5: terminal errors are plain strings: an unrecognized command name gives
the "command not found" message with isError, and `cat` on a missing name
gives "file not found: name" with isError. -/
theorem C5_plain_string_errors (env : TermEnv) (input : Str) :
    (∀ cmd args, parseCommand input = some (cmd, args) → cmd ∉ knownCmds →
      processCommand env input = some ⟨"command not found: " ++ cmd.asString ++
        ". type \x27help\x27 for a list of available commands.", true, none⟩) ∧
    (∀ name rest, parseCommand input = some ("cat".data, name :: rest) →
      (∀ f ∈ env.files, f.name ≠ name) →
      processCommand env input = some ⟨"file not found: " ++ name.asString,
        true, none⟩) := by
  constructor
  · intro cmd args hparse hcmd
    rw [processCommand, hparse]
    simp only [Option.map]
    rw [runCmd_unknown env cmd args hcmd]
  · intro name rest hparse hfiles
    rw [processCommand, hparse]
    simp only [Option.map]
    rw [runCmd_cat_missing env name rest hfiles]

/-- Witness for C5: "frobnicate" is not found, and `cat nope.txt` in an empty
directory reports a missing file, both as plain strings with isError. -/
theorem C5_plain_string_errors_witness :
    processCommand ⟨[], "/".data, [], "now"⟩ "frobnicate".data =
      some ⟨"command not found: frobnicate. type \x27help\x27 for a list of available commands.",
        true, none⟩ ∧
    processCommand ⟨[], "/".data, [], "now"⟩ "cat nope.txt".data =
      some ⟨"file not found: nope.txt", true, none⟩ :=
  ⟨by
    have h := (C5_plain_string_errors ⟨[], "/".data, [], "now"⟩ "frobnicate".data).1
      "frobnicate".data [] (by decide) (by decide)
    simpa using h,
   by
    have h := (C5_plain_string_errors ⟨[], "/".data, [], "now"⟩ "cat nope.txt".data).2
      "nope.txt".data [] (by decide) (by simp)
    simpa using h⟩

/-
Claim about parseCommand tokenization.
-/

/-- C2 counterexample: for the input `echo ""` the empty double-quoted
segment is kept verbatim as the two-character argument consisting of the two
quotes; the surrounding quotes are not removed as the claim requires. -/
theorem C2_tokenize_counterexample :
    parseCommand ("echo \x22\x22".data) = some ("echo".data, [[dq, dq]]) ∧
    ¬ parseCommand ("echo \x22\x22".data) = some ("echo".data, [[]]) := by
  constructor
  · decide
  · decide

theorem takeWhile_all_append {p : Char → Bool} (t : Str) (x : Char) (r : Str)
    (ht : ∀ c ∈ t, p c = true) (hx : p x = false) :
    (t ++ x :: r).takeWhile p = t := by
  induction t with
  | nil => simp [List.takeWhile_cons, hx]
  | cons a t ih =>
    rw [List.cons_append, List.takeWhile_cons, ht a (List.mem_cons_self a t)]
    rw [ih (fun c hc => ht c (List.mem_cons.mpr (Or.inr hc)))]
    simp

theorem dropWhile_all_append {p : Char → Bool} (t : Str) (x : Char) (r : Str)
    (ht : ∀ c ∈ t, p c = true) (hx : p x = false) :
    (t ++ x :: r).dropWhile p = x :: r := by
  induction t with
  | nil => simp [List.dropWhile_cons, hx]
  | cons a t ih =>
    rw [List.cons_append, List.dropWhile_cons, if_pos (ht a (List.mem_cons_self a t))]
    rw [ih (fun c hc => ht c (List.mem_cons.mpr (Or.inr hc)))]

/-- A word of a command line as the claim describes it: a plain run of
non-space non-quote characters, or a section in double or single quotes. -/
inductive CmdWord where
  | plain (s : Str)
  | dquoted (s : Str)
  | squoted (s : Str)

/-- Well-formedness: plain words are non-empty runs of word characters;
quoted sections do not contain their own quote character. -/
def CmdWord.wf : CmdWord → Prop
  | .plain s => s ≠ [] ∧ ∀ c ∈ s, isWordChar c = true
  | .dquoted s => dq ∉ s
  | .squoted s => sqc ∉ s

/-- The concrete text of a word on the command line. -/
def CmdWord.render : CmdWord → Str
  | .plain s => s
  | .dquoted s => dq :: s ++ [dq]
  | .squoted s => sqc :: s ++ [sqc]

/-- The argument the tokenizer produces for a word: quotes are stripped from
a non-empty quoted section, while an empty quoted section stays as the two
quote characters. -/
def CmdWord.token : CmdWord → Str
  | .plain s => s
  | .dquoted s => if s = [] then [dq, dq] else s
  | .squoted s => if s = [] then [sqc, sqc] else s

/-- A command line made of words separated by single spaces. -/
def renderWords : List CmdWord → Str
  | [] => []
  | [w] => w.render
  | w :: ws => w.render ++ ' ' :: renderWords ws

theorem render_ne_nil (w : CmdWord) (h : w.wf) : w.render ≠ [] := by
  rcases w with s | s | s
  · exact h.1
  · simp [CmdWord.render]
  · simp [CmdWord.render]

theorem renderWords_cons_ne_nil (w : CmdWord) (ws : List CmdWord) (h : w.wf) :
    renderWords (w :: ws) ≠ [] := by
  rcases ws with _ | ⟨w', ws'⟩
  · exact render_ne_nil w h
  · simp only [renderWords]
    intro hc
    rcases List.append_eq_nil.mp hc with ⟨_, h2⟩
    exact List.noConfusion h2

theorem tokenize_renderWords (ws : List CmdWord) (hwf : ∀ w ∈ ws, w.wf) :
    tokenize (renderWords ws) = ws.map CmdWord.token := by
  induction ws with
  | nil => rfl
  | cons w ws ih =>
    have hw : w.wf := hwf w (List.mem_cons_self w ws)
    have hrest : ∀ u ∈ ws, u.wf := fun u hu => hwf u (List.mem_cons.mpr (Or.inr hu))
    rcases ws with _ | ⟨w', ws'⟩
    · rcases w with s | s | s
      · obtain ⟨hne, hall⟩ := hw
        rcases s with _ | ⟨a, t⟩
        · exact absurd rfl hne
        · rw [show renderWords [CmdWord.plain (a :: t)] = a :: t from rfl]
          rw [tokenize_word t (hall a (List.mem_cons_self a t))]
          rw [List.takeWhile_eq_self_iff.mpr
            (fun c hc => hall c (List.mem_cons.mpr (Or.inr hc)))]
          rw [List.dropWhile_eq_nil_iff.mpr
            (fun c hc => hall c (List.mem_cons.mpr (Or.inr hc)))]
          rfl
      · rw [show renderWords [CmdWord.dquoted s] = dq :: (s ++ dq :: []) from rfl]
        rw [tokenize_dquote _ s [] (breakAt_append dq s [] hw)]
        rfl
      · rw [show renderWords [CmdWord.squoted s] = sqc :: (s ++ sqc :: []) from rfl]
        rw [tokenize_squote _ s [] (breakAt_append sqc s [] hw)]
        rfl
    · have ihr := ih hrest
      rcases w with s | s | s
      · obtain ⟨hne, hall⟩ := hw
        rcases s with _ | ⟨a, t⟩
        · exact absurd rfl hne
        · rw [show renderWords (CmdWord.plain (a :: t) :: w' :: ws') =
            a :: (t ++ ' ' :: renderWords (w' :: ws')) from rfl]
          rw [tokenize_word _ (hall a (List.mem_cons_self a t))]
          rw [takeWhile_all_append t ' ' _
            (fun c hc => hall c (List.mem_cons.mpr (Or.inr hc))) (by decide)]
          rw [dropWhile_all_append t ' ' _
            (fun c hc => hall c (List.mem_cons.mpr (Or.inr hc))) (by decide)]
          rw [tokenize_space _ (by decide), ihr]
          rfl
      · rw [show renderWords (CmdWord.dquoted s :: w' :: ws') =
          dq :: (s ++ dq :: (' ' :: renderWords (w' :: ws'))) from by
            simp [renderWords, CmdWord.render]]
        rw [tokenize_dquote _ s _ (breakAt_append dq s _ hw)]
        rw [tokenize_space _ (by decide), ihr]
        rfl
      · rw [show renderWords (CmdWord.squoted s :: w' :: ws') =
          sqc :: (s ++ sqc :: (' ' :: renderWords (w' :: ws'))) from by
            simp [renderWords, CmdWord.render]]
        rw [tokenize_squote _ s _ (breakAt_append sqc s _ hw)]
        rw [tokenize_space _ (by decide), ihr]
        rfl

theorem jsTrim_eq_self (s : Str)
    (h1 : ∀ c, s.head? = some c → isJsSpace c = false)
    (h2 : ∀ c, s.getLast? = some c → isJsSpace c = false) :
    jsTrim s = s := by
  unfold jsTrim
  have hd : s.dropWhile isJsSpace = s := by
    rcases s with _ | ⟨a, t⟩
    · rfl
    · rw [List.dropWhile_cons, if_neg (by simp [h1 a rfl])]
  rw [hd]
  have hr : s.reverse.dropWhile isJsSpace = s.reverse := by
    rcases hrev : s.reverse with _ | ⟨a, t⟩
    · rfl
    · have ha : s.getLast? = some a := by
        rw [← List.head?_reverse, hrev]
        rfl
      rw [List.dropWhile_cons, if_neg (by simp [h2 a ha])]
  rw [hr, List.reverse_reverse]

theorem renderWords_head_not_space (w : CmdWord) (ws : List CmdWord) (hw : w.wf) :
    ∀ c, (renderWords (w :: ws)).head? = some c → isJsSpace c = false := by
  intro c hc
  have hhead : (renderWords (w :: ws)).head? = w.render.head? := by
    rcases ws with _ | ⟨w', ws'⟩
    · rfl
    · simp only [renderWords]
      rcases hrw : w.render with _ | ⟨a, t⟩
      · exact absurd hrw (render_ne_nil w hw)
      · rfl
  rw [hhead] at hc
  rcases w with s | s | s
  · obtain ⟨hne, hall⟩ := hw
    rcases s with _ | ⟨a, t⟩
    · exact absurd rfl hne
    · simp only [CmdWord.render, List.head?_cons, Option.some.injEq] at hc
      subst hc
      exact (isWordChar_props (hall a (List.mem_cons_self a t))).1
  · simp only [CmdWord.render, List.cons_append, List.head?_cons, Option.some.injEq] at hc
    subst hc
    decide
  · simp only [CmdWord.render, List.cons_append, List.head?_cons, Option.some.injEq] at hc
    subst hc
    decide

theorem render_getLast_not_space (w : CmdWord) (hw : w.wf) :
    ∀ c, w.render.getLast? = some c → isJsSpace c = false := by
  intro c hc
  rcases w with s | s | s
  · obtain ⟨_, hall⟩ := hw
    have hm : c ∈ s := List.mem_of_mem_getLast? hc
    exact (isWordChar_props (hall c hm)).1
  · rw [show (CmdWord.dquoted s).render = (dq :: s) ++ [dq] from by
      simp [CmdWord.render], List.getLast?_concat] at hc
    cases hc
    decide
  · rw [show (CmdWord.squoted s).render = (sqc :: s) ++ [sqc] from by
      simp [CmdWord.render], List.getLast?_concat] at hc
    cases hc
    decide

theorem renderWords_getLast_not_space (ws : List CmdWord) (hwf : ∀ w ∈ ws, w.wf) :
    ∀ c, (renderWords ws).getLast? = some c → isJsSpace c = false := by
  induction ws with
  | nil => intro c hc; exact absurd hc (by simp [renderWords])
  | cons w ws ih =>
    have hw : w.wf := hwf w (List.mem_cons_self w ws)
    have hrest : ∀ u ∈ ws, u.wf := fun u hu => hwf u (List.mem_cons.mpr (Or.inr hu))
    rcases ws with _ | ⟨w', ws'⟩
    · exact render_getLast_not_space w hw
    · intro c hc
      have hne : renderWords (w' :: ws') ≠ [] :=
        renderWords_cons_ne_nil w' ws' (hrest w' (List.mem_cons_self w' ws'))
      have hlast : (renderWords (w :: w' :: ws')).getLast? =
          (renderWords (w' :: ws')).getLast? := by
        simp only [renderWords]
        rw [List.getLast?_append]
        rcases hrw : renderWords (w' :: ws') with _ | ⟨a, t⟩
        · exact absurd hrw hne
        · rw [List.getLast?_cons_cons]
          rcases h : (a :: t).getLast? with _ | d
          · rw [List.getLast?_eq_none_iff] at h
            exact absurd h (by simp)
          · rfl
      rw [hlast] at hc
      exact ih hrest c hc

/-- C2 (amended): for every command line of space-separated words, a
non-empty segment in double or single quotes becomes a single argument with
the quotes removed (a quoted filename with spaces stays one argument), an
empty quoted segment stays as its two quote characters, the first token
lowercased is the subcommand, and the remaining tokens are the arguments in
order. -/
theorem C2_parse_respects_quotes (w : CmdWord) (ws : List CmdWord)
    (hwf : ∀ u ∈ w :: ws, u.wf) :
    parseCommand (renderWords (w :: ws)) =
      some (toLowerStr w.token, ws.map CmdWord.token) := by
  have hw : w.wf := hwf w (List.mem_cons_self w ws)
  have htrim : jsTrim (renderWords (w :: ws)) = renderWords (w :: ws) :=
    jsTrim_eq_self _ (renderWords_head_not_space w ws hw)
      (renderWords_getLast_not_space (w :: ws) hwf)
  simp only [parseCommand]
  rw [htrim, if_neg (renderWords_cons_ne_nil w ws hw)]
  rw [tokenize_renderWords (w :: ws) hwf]
  rfl

/-- Witness for C2 (amended): `cat "my file.txt"` parses into subcommand cat
with the single argument `my file.txt`, quotes removed. -/
theorem C2_parse_respects_quotes_witness :
    parseCommand ("cat \x22my file.txt\x22".data) =
      some ("cat".data, ["my file.txt".data]) := by
  have h := C2_parse_respects_quotes (CmdWord.plain "cat".data)
    [CmdWord.dquoted "my file.txt".data] (by
      intro u hu
      rcases List.mem_cons.mp hu with rfl | hu
      · exact ⟨by decide, by decide⟩
      · rcases List.mem_cons.mp hu with rfl | hu
        · show dq ∉ "my file.txt".data
          decide
        · exact absurd hu (List.not_mem_nil u))
  have e1 : renderWords [CmdWord.plain "cat".data, CmdWord.dquoted "my file.txt".data] =
      "cat \x22my file.txt\x22".data := by decide
  have e2 : toLowerStr (CmdWord.plain "cat".data).token = "cat".data := by decide
  have e3 : [CmdWord.dquoted "my file.txt".data].map CmdWord.token =
      ["my file.txt".data] := by decide
  rw [e1, e2, e3] at h
  exact h
